import Mathlib

/-!
Verification of the gomarkov Markov-chain library (gomarkov.go).

The Go source is embedded shallowly:

* Go maps (`map[string]int`, `map[int]string`, `map[int]sparseArray`,
  `map[int]int`) become association lists together with a
  lookup (`alookup`) and a replace-or-append update (`ainsert`).  For every
  map value reachable through the public API the key list is duplicate-free,
  so the association list is a faithful map value; map iteration order,
  which Go leaves unspecified, only ever feeds commutative folds (`sum`),
  a sort whose comparator extends to a linear order (`orderedPairs`), and
  a last-write-wins inversion (`invertPool`), where the embedding fixes the
  list order as the iteration order.
* Go `float64` arithmetic appears twice: `Chain.TransitionProbability`
  returns the exact quotient over `ℚ` (dropping IEEE754 rounding — adequate
  for the claims whose values are exact or compared between two identical
  computations), while `Chain.TransitionProbabilityF64` additionally models
  the `float64` conversions and the correctly rounded division via
  `roundF64`, the exact IEEE754 binary64 round-to-nearest-even on `ℚ`.
* A `PRNG` interface value is embedded as a function `Int → Int`; the code
  performs exactly one `Intn` call per `GenerateDeterministic` call, with
  the row sum as the argument.
* `MarshalJSON` / `UnmarshalJSON` are embedded at the level of the
  `chainJSON` snapshot structure; the byte-level JSON codec is the Go
  standard library (outside this repository), and a `chainJSON` value
  round-trips through it unchanged.
* The `sync.RWMutex` field of `Chain` carries no query-relevant state
  (`UnmarshalJSON` replaces it with a fresh one) and is omitted.
* `GenerateDeterministic` indexes `current[len(current)-1]`, which in Go
  requires a nonempty n-gram (order at least 1); theorems about that code
  path assume the n-gram is nonempty.
-/

/-- Association-list lookup: the embedding of reading a Go map. -/
def alookup {α β : Type} [DecidableEq α] : List (α × β) → α → Option β
  | [], _ => none
  | (k, v) :: rest, a => if k = a then some v else alookup rest a

/-- Association-list replace-or-append: the embedding of Go map assignment. -/
def ainsert {α β : Type} [DecidableEq α] : List (α × β) → α → β → List (α × β)
  | [], k, v => [(k, v)]
  | (k', v') :: rest, k, v =>
    if k' = k then (k, v) :: rest else (k', v') :: ainsert rest k v

/-- Embedding of Go `strings.Join`: concatenation with `sep` between elements. -/
def stringsJoin (sep : String) : List String → String
  | [] => ""
  | [a] => a
  | a :: b :: rest => a ++ sep ++ stringsJoin sep (b :: rest)

/-- Sentinel prepended by `Add` (`StartToken = "^"`). -/
def StartToken : String := "^"

/-- Sentinel appended by `Add` and used as the generation terminator (`EndToken = "$"`). -/
def EndToken : String := "$"

/-- `NGram` is an array of words. -/
abbrev NGram := List String

/-- Canonical key of an n-gram: the tokens joined with `"_"`. -/
def NGram.key (ngram : NGram) : String := stringsJoin "_" ngram

/-- Sparse row of the frequency table: Go `map[int]int`. -/
abbrev sparseArray := List (Nat × Nat)

/-- `sparseArray.sum`: total of all counts in the row. -/
def sparseArray.sum (s : sparseArray) : Nat := (s.map Prod.snd).sum

/-- The reflexive closure of the comparator used by `orderedPairs`:
`p` sorts no later than `q` iff `p` has the larger count, or equal counts
and `p`'s column index is no larger.  This is a linear order on pairs. -/
def pairLE (p q : Nat × Nat) : Prop := q.2 < p.2 ∨ (p.2 = q.2 ∧ p.1 ≤ q.1)

instance : DecidableRel pairLE := fun p q =>
  inferInstanceAs (Decidable (q.2 < p.2 ∨ (p.2 = q.2 ∧ p.1 ≤ q.1)))

instance : IsTotal (Nat × Nat) pairLE where
  total p q := by
    unfold pairLE
    rcases Nat.lt_trichotomy p.2 q.2 with h | h | h
    · exact Or.inr (Or.inl h)
    · rcases Nat.le_total p.1 q.1 with h' | h'
      · exact Or.inl (Or.inr ⟨h, h'⟩)
      · exact Or.inr (Or.inr ⟨h.symm, h'⟩)
    · exact Or.inl (Or.inl h)

instance : IsTrans (Nat × Nat) pairLE where
  trans p q r h₁ h₂ := by
    unfold pairLE at *
    rcases h₁ with h₁ | ⟨e₁, k₁⟩
    · rcases h₂ with h₂ | ⟨e₂, _⟩
      · exact Or.inl (Nat.lt_trans h₂ h₁)
      · exact Or.inl (e₂ ▸ h₁)
    · rcases h₂ with h₂ | ⟨e₂, k₂⟩
      · exact Or.inl (e₁ ▸ h₂)
      · exact Or.inr ⟨e₁.trans e₂, Nat.le_trans k₁ k₂⟩

instance : IsAntisymm (Nat × Nat) pairLE where
  antisymm p q h₁ h₂ := by
    unfold pairLE at *
    rcases h₁ with h₁ | ⟨e₁, k₁⟩
    · rcases h₂ with h₂ | ⟨e₂, _⟩
      · exact absurd (Nat.lt_trans h₁ h₂) (Nat.lt_irrefl _)
      · exact absurd h₁ (e₂ ▸ Nat.lt_irrefl _)
    · rcases h₂ with h₂ | ⟨e₂, k₂⟩
      · exact absurd h₂ (e₁ ▸ Nat.lt_irrefl _)
      · exact Prod.ext (Nat.le_antisymm k₁ k₂) e₁

/-- `sparseArray.orderedPairs`: the row's entries sorted in reverse order by
frequency, with the column index as tie-breaker.  Go collects the map's
entries in unspecified iteration order and applies `sort.Slice` with this
comparator; because the comparator's reflexive closure `pairLE` is a linear
order, the sorted permutation is unique, so the embedding may sort the
entry list directly. -/
def sparseArray.orderedPairs (s : sparseArray) : List (Nat × Nat) :=
  List.insertionSort pairLE s

/-- The state pool: bidirectional interning table between state keys and
dense integer indices (fields as used by `MarshalJSON`/`UnmarshalJSON`). -/
structure spool where
  stringMap : List (String × Nat)
  intMap : List (Nat × String)
  deriving DecidableEq

/-- Modelled from the spec: the `spool.add` implementation is not under
`src/` (only its callers are).  Spec section 4.1: if `key` is already
interned, return its existing index; else assign the next unused dense
index, record both directions, and return it. -/
def spool.add (s : spool) (key : String) : Nat × spool :=
  match alookup s.stringMap key with
  | some i => (i, s)
  | none =>
    (s.stringMap.length,
      ⟨s.stringMap ++ [(key, s.stringMap.length)],
        s.intMap ++ [(s.stringMap.length, key)]⟩)

/-- Modelled from the spec: the `spool.get` implementation is not under
`src/`.  Spec section 4.1: a pure lookup with no side effect. -/
def spool.get (s : spool) (key : String) : Option Nat := alookup s.stringMap key

/-- `Chain` is a markov chain instance (the `sync.RWMutex` is omitted, see
the module comment). -/
structure Chain where
  Order : Nat
  statePool : spool
  frequencyMat : List (Nat × sparseArray)
  deriving DecidableEq

/-- `Pair` is a pair of consecutive states in a sequence. -/
structure Pair where
  CurrentState : NGram
  NextState : String

/-- `array(value, count)`: a slice holding `count` copies of `value`. -/
def array (value : String) (count : Nat) : List String := List.replicate count value

/-- `MakePairs` generates n-gram pairs of consecutive states in a sequence:
for each `i < len(tokens) - order`, the window `tokens[i : i+order]` is the
current state and `tokens[i+order]` is the next token. -/
def MakePairs : List String → Nat → List Pair
  | [], _ => []
  | t :: rest, order =>
    if order < (t :: rest).length then
      ⟨(t :: rest).take order, (t :: rest).getD order ""⟩ :: MakePairs rest order
    else []

/-- Embedding of `s[k]++` on a Go `map[int]int`: increment the entry,
creating it at 1 if absent. -/
def saIncr : sparseArray → Nat → sparseArray
  | [], k => [(k, 1)]
  | (k', v) :: rest, k =>
    if k' = k then (k, v + 1) :: rest else (k', v) :: saIncr rest k

/-- One iteration of the loop body of `Chain.Add`: intern the current
state's key, intern the next token, then increment
`frequencyMat[currentIndex][nextIndex]` (creating the row if absent). -/
def Chain.addPair (chain : Chain) (pair : Pair) : Chain :=
  let r₁ := spool.add chain.statePool (NGram.key pair.CurrentState)
  let r₂ := spool.add r₁.2 pair.NextState
  let row := (alookup chain.frequencyMat r₁.1).getD []
  { Order := chain.Order
    statePool := r₂.2
    frequencyMat := ainsert chain.frequencyMat r₁.1 (saIncr row r₂.1) }

/-- `Chain.Add`: pad the input with `Order` start tokens and `Order` end
tokens, then record every (current n-gram, next token) pair. -/
def Chain.Add (chain : Chain) (input : List String) : Chain :=
  let tokens := array StartToken chain.Order ++ input ++ array EndToken chain.Order
  (MakePairs tokens chain.Order).foldl Chain.addPair chain

/-- `NewChain` creates an instance of `Chain` with the given order and
empty pool and table. -/
def NewChain (order : Nat) : Chain := ⟨order, ⟨[], []⟩, []⟩

/-- A chain built through the public constructor and training API only:
`NewChain` followed by a sequence of `Add` calls. -/
def buildChain (order : Nat) (inputs : List (List String)) : Chain :=
  inputs.foldl Chain.Add (NewChain order)

/-- `Chain.TransitionProbability`: the transition probability between two
states.  Go computes `float64(arr[nextIndex]) / float64(arr.sum())`; this
embedding returns the exact quotient in `ℚ`, dropping the IEEE754
roundings.  That abstraction is adequate where the quotient is exactly
representable (0, 1) or where two runs of the same computation are
compared; `Chain.TransitionProbabilityF64` below models the roundings. -/
def Chain.TransitionProbability (chain : Chain) (next : String) (current : NGram) :
    Except String ℚ :=
  if current.length ≠ chain.Order then
    .error "N-gram length does not match chain order"
  else
    match spool.get chain.statePool (NGram.key current),
        spool.get chain.statePool next with
    | some currentIndex, some nextIndex =>
      let arr := (alookup chain.frequencyMat currentIndex).getD []
      .ok ((((alookup arr nextIndex).getD 0 : Nat) : ℚ) / ((sparseArray.sum arr : Nat) : ℚ))
    | _, _ => .ok 0

/-- The message of `fmt.Errorf("Unknown ngram %v", current)`; Go's `%v`
prints a string slice as its elements joined by spaces inside brackets. -/
def unknownNGramError (current : NGram) : String :=
  "Unknown ngram [" ++ stringsJoin " " current ++ "]"

/-- The sampling loop of `GenerateDeterministic`: subtract each ordered
pair's count from the random draw and return the first column index at
which the remainder drops to zero or below. -/
def sampleLoop : List (Nat × Nat) → Int → Option Nat
  | [], _ => none
  | (key, freq) :: rest, randN =>
    if randN - freq ≤ 0 then some key else sampleLoop rest (randN - freq)

/-- `Chain.GenerateDeterministic`: generate the next token from a seed
n-gram using the supplied randomness source (embedded as `Int → Int`;
the single draw is `prng (sparseArray.sum arr)`). -/
def Chain.GenerateDeterministic (chain : Chain) (current : NGram) (prng : Int → Int) :
    Except String String :=
  if current.length ≠ chain.Order then
    .error "N-gram length does not match chain order"
  else if current.getLast? = some EndToken then
    .ok ""
  else
    match spool.get chain.statePool (NGram.key current) with
    | none => .error (unknownNGramError current)
    | some currentIndex =>
      let arr := (alookup chain.frequencyMat currentIndex).getD []
      match sampleLoop (sparseArray.orderedPairs arr) (prng (sparseArray.sum arr)) with
      | some key => .ok ((alookup chain.statePool.intMap key).getD "")
      | none => .ok ""

/-- `Chain.Generate` delegates to `GenerateDeterministic` with the
package-global `defaultPrng` (a source seeded from wall-clock time); the
entropy source is external to the system (spec sections 2 and 6), so the
embedding passes it explicitly. -/
def Chain.Generate (chain : Chain) (current : NGram) (prng : Int → Int) :
    Except String String :=
  chain.GenerateDeterministic current prng

/-- The snapshot structure serialized by `MarshalJSON`: order, the pool's
forward mapping, and the frequency table. -/
structure chainJSON where
  Order : Nat
  SpoolMap : List (String × Nat)
  FreqMat : List (Nat × sparseArray)
  deriving DecidableEq

/-- `Chain.MarshalJSON`, embedded at the snapshot-structure level: the
serialized object holds the order, `statePool.stringMap`, and
`frequencyMat`. -/
def Chain.MarshalJSON (chain : Chain) : chainJSON :=
  ⟨chain.Order, chain.statePool.stringMap, chain.frequencyMat⟩

/-- The inversion loop of `UnmarshalJSON`: `for k, v := range obj.SpoolMap
{ intMap[v] = k }` — last write wins on duplicate indices. -/
def invertPool (m : List (String × Nat)) : List (Nat × String) :=
  m.foldl (fun acc p => ainsert acc p.2 p.1) []

/-- `Chain.UnmarshalJSON`, embedded at the snapshot-structure level: rebuild
the reverse pool mapping by inverting the forward one and install the
decoded fields.  The Go function's only error source is byte-level JSON
syntax (the standard library decoder), which is below this embedding; once
a `chainJSON` value is decoded the function always succeeds. -/
def Chain.UnmarshalJSON (obj : chainJSON) : Except String Chain :=
  .ok ⟨obj.Order, ⟨obj.SpoolMap, invertPool obj.SpoolMap⟩, obj.FreqMat⟩

/-- `enumKV n keys`: the association list `[(keys[0], n), (keys[1], n+1), …]`. -/
def enumKV (n : Nat) : List String → List (String × Nat)
  | [] => []
  | k :: rest => (k, n) :: enumKV (n + 1) rest

/-- The pool whose interned keys, in order of first interning, are `keys`. -/
def poolOfKeys (keys : List String) : spool :=
  ⟨enumKV 0 keys, (enumKV 0 keys).map (fun p => (p.2, p.1))⟩

/-- Well-formedness of a pool: it is `poolOfKeys` of a duplicate-free key
list (dense indices from 0 in interning order, inverse maps consistent). -/
def PoolWF (s : spool) : Prop := ∃ keys, keys.Nodup ∧ s = poolOfKeys keys

/-- Well-formedness of a stored sparse row against a pool of size `n`:
duplicate-free column indices, all issued by the pool, all counts
positive. -/
def RowWF (n : Nat) (row : sparseArray) : Prop :=
  (row.map Prod.fst).Nodup ∧ ∀ p ∈ row, p.1 < n ∧ 1 ≤ p.2

/-- Structural invariant of every chain reachable through `NewChain` and
`Add`. -/
def ChainWF (c : Chain) : Prop :=
  PoolWF c.statePool ∧
    ∀ i row, alookup c.frequencyMat i = some row →
      row ≠ [] ∧ RowWF c.statePool.stringMap.length row

/-- The key is interned and its frequency row exists with positive total. -/
def RowPos (c : Chain) (key : String) : Prop :=
  ∃ j row, spool.get c.statePool key = some j ∧
    alookup c.frequencyMat j = some row ∧ 0 < sparseArray.sum row

/-- The probability carried by a `TransitionProbability` result (0 for the
error case); used to state summation properties. -/
def probOf (e : Except String ℚ) : ℚ := e.toOption.getD 0

/-- Invariant of chains trained only on delimiter-free tokens: every
interned key either has a positive frequency row, or is the END sentinel,
or (only possible at order at least 2) is a plain next-token string, which
then contains no delimiter character. -/
def DelimInv (c : Chain) : Prop :=
  ∀ k : String, spool.get c.statePool k ≠ none →
    RowPos c k ∨ k = EndToken ∨ (2 ≤ c.Order ∧ '_' ∉ k.data)

/-- Exponent search for IEEE754 rounding: repeatedly double (or halve) the
positive value until it lies in `[1, 2)`, tracking the binary exponent.
The fuel 4200 covers every exponent a binary64 value can have (|e| ≤ 1075)
with a wide margin; `floorLog2Aux_spec` proves the search correct whenever
the exponent is within the fuel. -/
def floorLog2Aux : Nat → ℚ → Int → Int
  | 0, _, e => e
  | fuel + 1, x, e =>
    if x < 1 then floorLog2Aux fuel (x * 2) (e - 1)
    else if 2 ≤ x then floorLog2Aux fuel (x / 2) (e + 1)
    else e

/-- The binary exponent of a positive rational: the `e` with
`2 ^ e ≤ x < 2 ^ (e + 1)`. -/
def floorLog2 (x : ℚ) : Int := floorLog2Aux 4200 x 0

/-- Round a rational to the nearest integer, ties to even — the IEEE754
default rounding, applied to the scaled significand. -/
def rne (x : ℚ) : Int :=
  let n := ⌊x⌋
  if x - n < 1/2 then n
  else if 1/2 < x - n then n + 1
  else if n % 2 = 0 then n else n + 1

/-- IEEE754 binary64 rounding (round to nearest, ties to even) of a
rational: scale the magnitude so the significand lies in `[2^52, 2^53)`,
round it to the nearest integer with ties to even, and scale back.  This
is the exact value a real number rounds to as a `float64`, for values in
the normal range (gradual underflow below `2^-1022` and overflow at
`2^1024`, which the probabilities of this library do not reach, are out of
scope); `0` maps to `0`. -/
def roundF64 (x : ℚ) : ℚ :=
  if x = 0 then 0
  else
    let a := |x|
    let e := floorLog2 a
    let s := rne (a * (2 : ℚ) ^ ((52 : Int) - e))
    (if x < 0 then -1 else 1) * (s : ℚ) * (2 : ℚ) ^ (e - 52)

/-- `Chain.TransitionProbability` with Go's `float64` arithmetic made
explicit: Go computes `float64(arr[nextIndex]) / float64(arr.sum())`, so
each integer-to-double conversion and the correctly rounded IEEE754
division is a `roundF64`.  This refines `TransitionProbability`, which
returns the quotient exactly.  (The `0.0/0.0 = NaN` case of an absent row,
documented at C7, is not modelled here: in `ℚ`, `0 / 0 = 0`; the claims
using this definition stay within states whose row is present.) -/
def Chain.TransitionProbabilityF64 (chain : Chain) (next : String) (current : NGram) :
    Except String ℚ :=
  if current.length ≠ chain.Order then
    .error "N-gram length does not match chain order"
  else
    match spool.get chain.statePool (NGram.key current),
        spool.get chain.statePool next with
    | some currentIndex, some nextIndex =>
      let arr := (alookup chain.frequencyMat currentIndex).getD []
      .ok (roundF64
        (roundF64 (((alookup arr nextIndex).getD 0 : Nat) : ℚ) /
          roundF64 ((sparseArray.sum arr : Nat) : ℚ)))
    | _, _ => .ok 0

/-- Decidable equality for `Except` results, so that concrete query results
can be checked by evaluation. -/
instance {ε α : Type} [DecidableEq ε] [DecidableEq α] : DecidableEq (Except ε α) := fun a b =>
  match a, b with
  | .error e₁, .error e₂ =>
    if h : e₁ = e₂ then .isTrue (by rw [h]) else .isFalse (fun hh => h (by injection hh))
  | .error _, .ok _ => .isFalse (fun hh => Except.noConfusion hh)
  | .ok _, .error _ => .isFalse (fun hh => Except.noConfusion hh)
  | .ok a₁, .ok a₂ =>
    if h : a₁ = a₂ then .isTrue (by rw [h]) else .isFalse (fun hh => h (by injection hh))

/-! ### Association-list lemmas -/

theorem alookup_append_some {α β : Type} [DecidableEq α] {l : List (α × β)} {a : α} {v : β}
    (m : List (α × β)) (h : alookup l a = some v) : alookup (l ++ m) a = some v := by
  induction l with
  | nil => simp [alookup] at h
  | cons p rest ih =>
    obtain ⟨k, w⟩ := p
    by_cases hk : k = a <;> simp_all [alookup]

theorem alookup_append_none {α β : Type} [DecidableEq α] {l : List (α × β)} {a : α}
    (m : List (α × β)) (h : alookup l a = none) : alookup (l ++ m) a = alookup m a := by
  induction l with
  | nil => rfl
  | cons p rest ih =>
    obtain ⟨k, w⟩ := p
    by_cases hk : k = a <;> simp_all [alookup]

theorem alookup_eq_none {α β : Type} [DecidableEq α] {l : List (α × β)} {a : α} :
    alookup l a = none ↔ a ∉ l.map Prod.fst := by
  induction l with
  | nil => simp [alookup]
  | cons p rest ih =>
    obtain ⟨k, w⟩ := p
    by_cases hk : k = a
    · subst hk
      simp [alookup]
    · simp [alookup, hk, ih, Ne.symm hk]

theorem alookup_ainsert {α β : Type} [DecidableEq α] (l : List (α × β)) (k : α) (v : β)
    (a : α) : alookup (ainsert l k v) a = if k = a then some v else alookup l a := by
  induction l with
  | nil => rfl
  | cons p rest ih =>
    obtain ⟨k', w⟩ := p
    by_cases h1 : k' = k
    · subst h1
      by_cases h2 : k' = a <;> simp [alookup, ainsert, h2]
    · by_cases h2 : k' = a
      · subst h2
        have hka : ¬ k = k' := fun h => h1 h.symm
        simp [alookup, ainsert, h1, hka]
      · simp [alookup, ainsert, h1, h2, ih]

theorem ainsert_fresh {α β : Type} [DecidableEq α] {l : List (α × β)} {k : α} (v : β)
    (h : k ∉ l.map Prod.fst) : ainsert l k v = l ++ [(k, v)] := by
  induction l with
  | nil => rfl
  | cons p rest ih =>
    obtain ⟨k', w⟩ := p
    simp only [List.map_cons, List.mem_cons] at h
    push_neg at h
    have hne : ¬ k' = k := fun hh => h.1 hh.symm
    simp [ainsert, hne, ih h.2]

/-! ### Lemmas about `saIncr` -/

theorem saIncr_ne_nil (s : sparseArray) (k : Nat) : saIncr s k ≠ [] := by
  match s with
  | [] => simp [saIncr]
  | (k', v) :: rest =>
    by_cases h : k' = k <;> simp [saIncr, h]

theorem sum_saIncr (s : sparseArray) (k : Nat) :
    sparseArray.sum (saIncr s k) = sparseArray.sum s + 1 := by
  induction s with
  | nil => rfl
  | cons p rest ih =>
    obtain ⟨k', v⟩ := p
    by_cases h : k' = k <;> simp [saIncr, h, sparseArray.sum] at ih ⊢ <;> omega

theorem saIncr_keys (s : sparseArray) (k : Nat) :
    (saIncr s k).map Prod.fst =
      if k ∈ s.map Prod.fst then s.map Prod.fst else s.map Prod.fst ++ [k] := by
  induction s with
  | nil => rfl
  | cons p rest ih =>
    obtain ⟨k', v⟩ := p
    by_cases h : k' = k
    · subst h
      simp [saIncr]
    · have hk : ¬ k = k' := fun hh => h hh.symm
      by_cases h2 : k ∈ rest.map Prod.fst <;> simp [saIncr, h, hk, ih, h2]

theorem saIncr_forall (s : sparseArray) (k : Nat) (P : Nat → Prop)
    (h : ∀ p ∈ s, P p.1 ∧ 1 ≤ p.2) (hk : P k) :
    ∀ p ∈ saIncr s k, P p.1 ∧ 1 ≤ p.2 := by
  induction s with
  | nil =>
    intro p hp
    simp only [saIncr, List.mem_singleton] at hp
    subst hp
    exact ⟨hk, Nat.le_refl 1⟩
  | cons q rest ih =>
    obtain ⟨k', v⟩ := q
    have hhead := h (k', v) (List.mem_cons_self _ _)
    have htail : ∀ p ∈ rest, P p.1 ∧ 1 ≤ p.2 :=
      fun p hp => h p (List.mem_cons_of_mem _ hp)
    intro p hp
    by_cases hkk : k' = k
    · simp only [saIncr, if_pos hkk, List.mem_cons] at hp
      rcases hp with hpe | hp
      · subst hpe
        exact ⟨hk, by omega⟩
      · exact htail p hp
    · simp only [saIncr, if_neg hkk, List.mem_cons] at hp
      rcases hp with hpe | hp
      · subst hpe
        exact hhead
      · exact ih htail p hp

/-! ### A generic fold-invariant lemma -/

theorem foldl_pres {α β : Type} (P : α → Prop) (f : α → β → α)
    (h : ∀ a b, P a → P (f a b)) :
    ∀ (l : List β) (a : α), P a → P (l.foldl f a) := by
  intro l
  induction l with
  | nil => intro a ha; exact ha
  | cons b rest ih => intro a ha; exact ih (f a b) (h a b ha)

/-! ### Lemmas about `enumKV` and `poolOfKeys` -/

theorem enumKV_length (n : Nat) (keys : List String) :
    (enumKV n keys).length = keys.length := by
  induction keys generalizing n with
  | nil => rfl
  | cons k rest ih => simp [enumKV, ih]

theorem enumKV_append (n : Nat) (keys : List String) (k : String) :
    enumKV n (keys ++ [k]) = enumKV n keys ++ [(k, n + keys.length)] := by
  induction keys generalizing n with
  | nil => simp [enumKV]
  | cons k' rest ih =>
    have harith : n + 1 + rest.length = n + (rest.length + 1) := by omega
    simp [enumKV, ih, harith]

theorem enumKV_snd (n : Nat) (keys : List String) :
    (enumKV n keys).map Prod.snd = List.range' n keys.length := by
  induction keys generalizing n with
  | nil => rfl
  | cons k rest ih => simp [enumKV, ih, List.range']

theorem alookup_enumKV_eq_none {keys : List String} {n : Nat} {k : String} :
    alookup (enumKV n keys) k = none ↔ k ∉ keys := by
  induction keys generalizing n with
  | nil => simp [enumKV, alookup]
  | cons k' rest ih =>
    by_cases h : k' = k
    · subst h
      simp [enumKV, alookup]
    · simp [enumKV, alookup, h, ih, Ne.symm h]

theorem alookup_enumKV_lt {keys : List String} {n i : Nat} {k : String}
    (h : alookup (enumKV n keys) k = some i) : n ≤ i ∧ i < n + keys.length := by
  induction keys generalizing n with
  | nil => simp [enumKV, alookup] at h
  | cons k' rest ih =>
    by_cases hk : k' = k
    · simp only [enumKV, alookup, if_pos hk, Option.some.injEq] at h
      subst h
      simp only [List.length_cons]
      omega
    · simp only [enumKV, alookup, if_neg hk] at h
      have := ih h
      simp only [List.length_cons]
      omega

theorem alookup_enumKV_self {keys : List String} (hnd : keys.Nodup) {n : Nat}
    {p : String × Nat} (hp : p ∈ enumKV n keys) :
    alookup (enumKV n keys) p.1 = some p.2 := by
  induction keys generalizing n with
  | nil => simp [enumKV] at hp
  | cons k rest ih =>
    simp only [enumKV, List.mem_cons] at hp
    rcases hp with hpe | hp
    · subst hpe
      simp [alookup]
    · have hmem : p.1 ∈ rest := by
        clear ih hnd
        induction rest generalizing n with
        | nil => simp [enumKV] at hp
        | cons r rrest ih2 =>
          simp only [enumKV, List.mem_cons] at hp
          rcases hp with hpe | hp
          · subst hpe
            simp
          · exact List.mem_cons_of_mem _ (ih2 hp)
      have hne : ¬ k = p.1 := fun hh => ((List.nodup_cons.1 hnd).1 (hh ▸ hmem))
      simp only [alookup, if_neg hne]
      exact ih (List.nodup_cons.1 hnd).2 hp

/-! ### Lemmas about `spool.add` and `spool.get` -/

theorem spool.get_add_self (s : spool) (k : String) :
    spool.get (spool.add s k).2 k = some (spool.add s k).1 := by
  cases h : alookup s.stringMap k with
  | some i => simp [spool.add, spool.get, h]
  | none =>
    simp only [spool.add, spool.get, h]
    rw [alookup_append_none _ h]
    simp [alookup]

theorem spool.get_add_mono {s : spool} {k' : String} {j : Nat} (k : String)
    (h : spool.get s k' = some j) : spool.get (spool.add s k).2 k' = some j := by
  cases hh : alookup s.stringMap k with
  | some i => simpa [spool.add, spool.get, hh] using h
  | none =>
    simp only [spool.add, spool.get, hh]
    exact alookup_append_some _ h

theorem spool.get_add_provenance {s : spool} {k k' : String}
    (h : spool.get (spool.add s k').2 k ≠ none) :
    spool.get s k ≠ none ∨ k = k' := by
  cases hh : alookup s.stringMap k' with
  | some i =>
    left
    simpa [spool.add, spool.get, hh] using h
  | none =>
    by_cases hg : alookup s.stringMap k = none
    · right
      by_contra hne
      simp only [spool.add, spool.get, hh] at h
      rw [alookup_append_none _ hg] at h
      exact h (by simp [alookup, Ne.symm hne])
    · left
      exact hg

theorem spool.add_fst_lt {s : spool} (hW : PoolWF s) (k : String) :
    (spool.add s k).1 < (spool.add s k).2.stringMap.length := by
  obtain ⟨keys, hnd, rfl⟩ := hW
  cases hh : alookup (poolOfKeys keys).stringMap k with
  | some i =>
    have hh' : alookup (enumKV 0 keys) k = some i := by simpa [poolOfKeys] using hh
    have hlt := alookup_enumKV_lt hh'
    simp only [spool.add, poolOfKeys, hh] at *
    simpa [enumKV_length] using by omega
  | none =>
    simp [spool.add, hh]

theorem spool.add_length_mono (s : spool) (k : String) :
    s.stringMap.length ≤ (spool.add s k).2.stringMap.length := by
  cases hh : alookup s.stringMap k with
  | some i => simp [spool.add, hh]
  | none => simp [spool.add, hh]

theorem PoolWF_add {s : spool} (hW : PoolWF s) (k : String) : PoolWF (spool.add s k).2 := by
  obtain ⟨keys, hnd, rfl⟩ := hW
  cases hh : alookup (poolOfKeys keys).stringMap k with
  | some i =>
    refine ⟨keys, hnd, ?_⟩
    simp [spool.add, hh]
  | none =>
    have hnm : k ∉ keys := alookup_enumKV_eq_none.1 (by simpa [poolOfKeys] using hh)
    have hh' : alookup (enumKV 0 keys) k = none := by simpa [poolOfKeys] using hh
    refine ⟨keys ++ [k], ?_, ?_⟩
    · simp [List.nodup_append, hnd, hnm]
    · simp only [spool.add, poolOfKeys, hh', enumKV_append, enumKV_length, Nat.zero_add]
      simp [enumKV_length]

/-! ### Unfolding lemmas for `Chain.addPair` -/

theorem Chain.statePool_addPair (c : Chain) (p : Pair) :
    (c.addPair p).statePool =
      (spool.add (spool.add c.statePool (NGram.key p.CurrentState)).2 p.NextState).2 := rfl

theorem Chain.frequencyMat_addPair (c : Chain) (p : Pair) :
    (c.addPair p).frequencyMat =
      ainsert c.frequencyMat (spool.add c.statePool (NGram.key p.CurrentState)).1
        (saIncr
          ((alookup c.frequencyMat
            (spool.add c.statePool (NGram.key p.CurrentState)).1).getD [])
          (spool.add (spool.add c.statePool (NGram.key p.CurrentState)).2
            p.NextState).1) := rfl

theorem Chain.Order_addPair (c : Chain) (p : Pair) : (c.addPair p).Order = c.Order := rfl

theorem Chain.Order_Add (c : Chain) (input : List String) : (c.Add input).Order = c.Order :=
  foldl_pres (fun x => x.Order = c.Order) Chain.addPair
    (fun a b ha => (Chain.Order_addPair a b).trans ha) _ c rfl

theorem Order_buildChain (order : Nat) (inputs : List (List String)) :
    (buildChain order inputs).Order = order :=
  foldl_pres (fun x => x.Order = order) Chain.Add
    (fun a b ha => (Chain.Order_Add a b).trans ha) inputs (NewChain order) rfl

theorem Chain.get_addPair_mono {c : Chain} {k : String} {j : Nat} (p : Pair)
    (h : spool.get c.statePool k = some j) :
    spool.get (c.addPair p).statePool k = some j := by
  rw [Chain.statePool_addPair]
  exact spool.get_add_mono _ (spool.get_add_mono _ h)

theorem Chain.poolLen_addPair_mono (c : Chain) (p : Pair) :
    c.statePool.stringMap.length ≤ (c.addPair p).statePool.stringMap.length := by
  rw [Chain.statePool_addPair]
  exact Nat.le_trans (spool.add_length_mono _ _) (spool.add_length_mono _ _)

/-! ### `RowPos` lemmas -/

theorem RowPos_addPair {c : Chain} {k : String} (p : Pair) (h : RowPos c k) :
    RowPos (c.addPair p) k := by
  obtain ⟨j, row, hg, hr, hs⟩ := h
  have hg' := Chain.get_addPair_mono p hg
  by_cases hj : (spool.add c.statePool (NGram.key p.CurrentState)).1 = j
  · refine ⟨j,
      saIncr row
        (spool.add (spool.add c.statePool (NGram.key p.CurrentState)).2 p.NextState).1,
      hg', ?_, ?_⟩
    · rw [Chain.frequencyMat_addPair, alookup_ainsert, if_pos hj, hj, hr]
      rfl
    · rw [sum_saIncr]
      omega
  · refine ⟨j, row, hg', ?_, hs⟩
    rw [Chain.frequencyMat_addPair, alookup_ainsert, if_neg hj]
    exact hr

theorem RowPos_addPair_self (c : Chain) (p : Pair) :
    RowPos (c.addPair p) (NGram.key p.CurrentState) := by
  refine ⟨(spool.add c.statePool (NGram.key p.CurrentState)).1,
    saIncr
      ((alookup c.frequencyMat
        (spool.add c.statePool (NGram.key p.CurrentState)).1).getD [])
      (spool.add (spool.add c.statePool (NGram.key p.CurrentState)).2 p.NextState).1,
    ?_, ?_, ?_⟩
  · rw [Chain.statePool_addPair]
    exact spool.get_add_mono _ (spool.get_add_self _ _)
  · rw [Chain.frequencyMat_addPair, alookup_ainsert, if_pos rfl]
  · rw [sum_saIncr]
    omega

theorem RowPos_foldl_addPair {c : Chain} {k : String} (ps : List Pair) (h : RowPos c k) :
    RowPos (ps.foldl Chain.addPair c) k :=
  foldl_pres (fun x => RowPos x k) Chain.addPair (fun _ b ha => RowPos_addPair b ha) ps c h

theorem RowPos_foldl_addPair_mem {ps : List Pair} {p : Pair} (hp : p ∈ ps) (c : Chain) :
    RowPos (ps.foldl Chain.addPair c) (NGram.key p.CurrentState) := by
  induction ps generalizing c with
  | nil => simp at hp
  | cons q rest ih =>
    rcases List.mem_cons.1 hp with rfl | hp'
    · exact RowPos_foldl_addPair rest (RowPos_addPair_self c p)
    · exact ih hp' (c.addPair q)

theorem get_foldl_addPair_provenance {ps : List Pair} {c : Chain} {k : String}
    (h : spool.get ((ps.foldl Chain.addPair c)).statePool k ≠ none) :
    spool.get c.statePool k ≠ none ∨
      ∃ p ∈ ps, k = NGram.key p.CurrentState ∨ k = p.NextState := by
  induction ps generalizing c with
  | nil => exact Or.inl h
  | cons q rest ih =>
    rcases ih (c := c.addPair q) h with h' | ⟨p, hp, hk⟩
    · rw [Chain.statePool_addPair] at h'
      rcases spool.get_add_provenance h' with h'' | rfl
      · rcases spool.get_add_provenance h'' with h3 | rfl
        · exact Or.inl h3
        · exact Or.inr ⟨q, List.mem_cons_self _ _, Or.inl rfl⟩
      · exact Or.inr ⟨q, List.mem_cons_self _ _, Or.inr rfl⟩
    · exact Or.inr ⟨p, List.mem_cons_of_mem _ hp, hk⟩

/-! ### Preservation of the structural invariant `ChainWF` -/

theorem ChainWF_NewChain (order : Nat) : ChainWF (NewChain order) := by
  constructor
  · exact ⟨[], List.nodup_nil, rfl⟩
  · intro i row h
    simp [NewChain, alookup] at h

theorem RowWF_mono {n m : Nat} (h : n ≤ m) {row : sparseArray} (hw : RowWF n row) :
    RowWF m row :=
  ⟨hw.1, fun p hp => ⟨Nat.lt_of_lt_of_le (hw.2 p hp).1 h, (hw.2 p hp).2⟩⟩

theorem RowWF_saIncr {n : Nat} {row : sparseArray} (hW : RowWF n row) {k : Nat}
    (hk : k < n) : RowWF n (saIncr row k) := by
  constructor
  · rw [saIncr_keys]
    split
    · exact hW.1
    · next hmem => simp [List.nodup_append, hW.1, hmem]
  · exact saIncr_forall row k (fun x => x < n) hW.2 hk

theorem row_sum_pos {n : Nat} {row : sparseArray} (hne : row ≠ []) (hW : RowWF n row) :
    0 < sparseArray.sum row := by
  cases row with
  | nil => exact absurd rfl hne
  | cons p rest =>
    have h1 := (hW.2 p (List.mem_cons_self _ _)).2
    simp only [sparseArray.sum, List.map_cons, List.sum_cons]
    omega

theorem ChainWF_addPair {c : Chain} (hW : ChainWF c) (p : Pair) : ChainWF (c.addPair p) := by
  obtain ⟨hpool, hmat⟩ := hW
  have hlen := Chain.poolLen_addPair_mono c p
  refine ⟨?_, ?_⟩
  · rw [Chain.statePool_addPair]
    exact PoolWF_add (PoolWF_add hpool _) _
  · intro i row h
    rw [Chain.frequencyMat_addPair, alookup_ainsert] at h
    have hniLt :
        (spool.add (spool.add c.statePool (NGram.key p.CurrentState)).2 p.NextState).1 <
          (c.addPair p).statePool.stringMap.length := by
      rw [Chain.statePool_addPair]
      exact spool.add_fst_lt (PoolWF_add hpool _) _
    by_cases hji : (spool.add c.statePool (NGram.key p.CurrentState)).1 = i
    · rw [if_pos hji] at h
      injection h with h
      subst h
      refine ⟨saIncr_ne_nil _ _, ?_⟩
      have hbaseWF : RowWF (c.addPair p).statePool.stringMap.length
          ((alookup c.frequencyMat
            (spool.add c.statePool (NGram.key p.CurrentState)).1).getD []) := by
        cases hbase : alookup c.frequencyMat
            (spool.add c.statePool (NGram.key p.CurrentState)).1 with
        | none =>
          simp only [hbase, Option.getD_none]
          exact ⟨by simp, by simp⟩
        | some base =>
          simp only [hbase, Option.getD_some]
          exact RowWF_mono hlen (hmat _ base hbase).2
      exact RowWF_saIncr hbaseWF hniLt
    · rw [if_neg hji] at h
      have hold := hmat i row h
      exact ⟨hold.1, RowWF_mono hlen hold.2⟩

theorem ChainWF_Add {c : Chain} (hW : ChainWF c) (input : List String) :
    ChainWF (c.Add input) :=
  foldl_pres ChainWF Chain.addPair (fun _ b ha => ChainWF_addPair ha b) _ c hW

theorem ChainWF_buildChain (order : Nat) (inputs : List (List String)) :
    ChainWF (buildChain order inputs) :=
  foldl_pres ChainWF Chain.Add (fun _ b ha => ChainWF_Add ha b) inputs _
    (ChainWF_NewChain order)

theorem Chain.Order_foldl_addPair (ps : List Pair) (c : Chain) :
    (ps.foldl Chain.addPair c).Order = c.Order :=
  foldl_pres (fun x => x.Order = c.Order) Chain.addPair
    (fun a b ha => (Chain.Order_addPair a b).trans ha) ps c rfl

theorem Chain.Add_eq (c : Chain) (input : List String) :
    c.Add input =
      (MakePairs (array StartToken c.Order ++ input ++ array EndToken c.Order)
        c.Order).foldl Chain.addPair c := rfl

/-! ### Characterizations of `MakePairs` -/

theorem mem_drop_of_mem_drop_succ {α : Type} {l : List α} {n : Nat} {x : α}
    (h : x ∈ l.drop (n + 1)) : x ∈ l.drop n := by
  have hd : l.drop (n + 1) = (l.drop n).drop 1 := by rw [List.drop_drop]
  rw [hd] at h
  exact List.drop_subset _ _ h

theorem MakePairs_current_length {tokens : List String} {order : Nat} {p : Pair}
    (hp : p ∈ MakePairs tokens order) : p.CurrentState.length = order := by
  induction tokens with
  | nil => simp [MakePairs] at hp
  | cons t rest ih =>
    rw [MakePairs] at hp
    split at hp
    · next hlt =>
      rcases List.mem_cons.1 hp with rfl | hp'
      · simp only [List.length_take]
        omega
      · exact ih hp'
    · simp at hp

theorem MakePairs_next_mem {tokens : List String} {order : Nat} {p : Pair}
    (hp : p ∈ MakePairs tokens order) : p.NextState ∈ tokens.drop order := by
  induction tokens with
  | nil => simp [MakePairs] at hp
  | cons t rest ih =>
    rw [MakePairs] at hp
    split at hp
    · next hlt =>
      rcases List.mem_cons.1 hp with rfl | hp'
      · show (t :: rest).getD order "" ∈ (t :: rest).drop order
        rw [List.getD_eq_getElem _ _ hlt]
        rw [← List.getElem_cons_drop _ order hlt]
        exact List.mem_cons_self _ _
      · have hmem := ih hp'
        cases order with
        | zero => exact List.mem_cons_of_mem t hmem
        | succ o =>
          simp only [List.drop_succ_cons]
          exact mem_drop_of_mem_drop_succ hmem
    · simp at hp

theorem MakePairs_cover_one {tokens : List String} {t : String}
    (ht : t ∈ tokens.dropLast) : ∃ p ∈ MakePairs tokens 1, p.CurrentState = [t] := by
  induction tokens with
  | nil => simp at ht
  | cons x rest ih =>
    cases rest with
    | nil => simp at ht
    | cons y rrest =>
      have hlt : 1 < (x :: y :: rrest).length := by simp
      rw [show (x :: y :: rrest).dropLast = x :: (y :: rrest).dropLast from rfl,
        List.mem_cons] at ht
      rcases ht with rfl | ht'
      · refine ⟨⟨(t :: y :: rrest).take 1, (t :: y :: rrest).getD 1 ""⟩, ?_, by simp⟩
        rw [MakePairs, if_pos hlt]
        exact List.mem_cons_self _ _
      · obtain ⟨p, hp, hpc⟩ := ih ht'
        refine ⟨p, ?_, hpc⟩
        rw [MakePairs, if_pos hlt]
        exact List.mem_cons_of_mem _ hp

/-! ### The canonical key and the delimiter -/

theorem key_singleton (t : String) : NGram.key [t] = t := rfl

theorem key_contains_delim {l : NGram} (h : 2 ≤ l.length) : '_' ∈ (NGram.key l).data := by
  match l, h with
  | a :: b :: rest, _ =>
    show '_' ∈ (stringsJoin "_" (a :: b :: rest)).data
    rw [show stringsJoin "_" (a :: b :: rest) = a ++ "_" ++ stringsJoin "_" (b :: rest)
      from rfl]
    rw [String.data_append, String.data_append]
    simp [show ("_" : String).data = ['_'] from rfl]

/-! ### The delimiter-free invariant -/

theorem DelimInv_NewChain (order : Nat) : DelimInv (NewChain order) := by
  intro k hk
  exact absurd rfl hk

theorem DelimInv_Add {c : Chain} {input : List String} (h1 : 1 ≤ c.Order)
    (hdelim : ∀ t ∈ input, '_' ∉ t.data) (hInv : DelimInv c) : DelimInv (c.Add input) := by
  intro k hk
  rw [Chain.Add_eq] at hk ⊢
  rw [show (((MakePairs (array StartToken c.Order ++ input ++ array EndToken c.Order)
      c.Order).foldl Chain.addPair c).Order) = c.Order from Chain.Order_foldl_addPair _ _]
  rcases get_foldl_addPair_provenance hk with hold | ⟨p, hp, hkey | hnext⟩
  · rcases hInv k hold with hpos | he | hplain
    · exact Or.inl (RowPos_foldl_addPair _ hpos)
    · exact Or.inr (Or.inl he)
    · exact Or.inr (Or.inr hplain)
  · subst hkey
    exact Or.inl (RowPos_foldl_addPair_mem hp c)
  · subst hnext
    have hmem := MakePairs_next_mem hp
    have hdrop : (array StartToken c.Order ++ input ++ array EndToken c.Order).drop
        c.Order = input ++ array EndToken c.Order := by
      have hlen : (array StartToken c.Order).length = c.Order := by simp [array]
      calc (array StartToken c.Order ++ input ++ array EndToken c.Order).drop c.Order
          = (array StartToken c.Order ++ (input ++ array EndToken c.Order)).drop
              (array StartToken c.Order).length := by
            rw [List.append_assoc, hlen]
        _ = input ++ array EndToken c.Order := List.drop_left _ _
    rw [hdrop, List.mem_append] at hmem
    rcases hmem with hin | hend
    · rcases Nat.lt_or_ge c.Order 2 with ho1 | ho2
      · have ho : c.Order = 1 := by omega
        rw [ho]
        have htl : p.NextState ∈
            (array StartToken 1 ++ input ++ array EndToken 1).dropLast := by
          have hdl : (array StartToken 1 ++ input ++ array EndToken 1).dropLast =
              array StartToken 1 ++ input := by
            rw [show array StartToken 1 ++ input ++ array EndToken 1 =
              (array StartToken 1 ++ input) ++ [EndToken] from by simp [array]]
            rw [List.dropLast_concat]
          rw [hdl]
          exact List.mem_append_right _ hin
        obtain ⟨q, hq, hqc⟩ := MakePairs_cover_one htl
        have hrp := RowPos_foldl_addPair_mem hq c
        rw [hqc, key_singleton] at hrp
        exact Or.inl hrp
      · exact Or.inr (Or.inr ⟨ho2, hdelim _ hin⟩)
    · have he : p.NextState = EndToken :=
        List.eq_of_mem_replicate (by simpa [array] using hend)
      exact Or.inr (Or.inl he)

theorem DelimInv_buildChain {order : Nat} {inputs : List (List String)} (h1 : 1 ≤ order)
    (hdelim : ∀ inp ∈ inputs, ∀ t ∈ inp, '_' ∉ t.data) :
    DelimInv (buildChain order inputs) := by
  have main : ∀ (l : List (List String)) (c : Chain), c.Order = order →
      (∀ inp ∈ l, ∀ t ∈ inp, '_' ∉ t.data) → DelimInv c →
      DelimInv (l.foldl Chain.Add c) := by
    intro l
    induction l with
    | nil => exact fun c _ _ hI => hI
    | cons inp rest ih =>
      intro c ho hd hI
      refine ih (c.Add inp) ?_ ?_ ?_
      · rw [Chain.Order_Add]
        exact ho
      · intro i hi
        exact hd i (List.mem_cons_of_mem _ hi)
      · exact DelimInv_Add (by omega) (hd inp (List.mem_cons_self _ _)) hI
  exact main inputs (NewChain order) rfl hdelim (DelimInv_NewChain order)

/-! ### Lemmas about the sampling loop -/

theorem sum_orderedPairs (s : sparseArray) :
    sparseArray.sum (sparseArray.orderedPairs s) = sparseArray.sum s := by
  unfold sparseArray.sum sparseArray.orderedPairs
  exact List.Perm.sum_eq (List.Perm.map Prod.snd (List.perm_insertionSort pairLE s))

theorem sampleLoop_total {pairs : List (Nat × Nat)} {r : Int}
    (h0 : 0 ≤ r) (hlt : r < (sparseArray.sum pairs : Int)) :
    ∃ k, sampleLoop pairs r = some k := by
  induction pairs generalizing r with
  | nil =>
    exfalso
    simp only [sparseArray.sum, List.map_nil, List.sum_nil, Nat.cast_zero] at hlt
    omega
  | cons q rest ih =>
    obtain ⟨key, freq⟩ := q
    by_cases hc : r - freq ≤ 0
    · exact ⟨key, by simp [sampleLoop, hc]⟩
    · have h0' : (0 : Int) ≤ r - freq := by omega
      have hsum : sparseArray.sum ((key, freq) :: rest) =
          freq + sparseArray.sum rest := by
        simp [sparseArray.sum]
      rw [hsum] at hlt
      have hlt' : r - freq < (sparseArray.sum rest : Int) := by
        push_cast at hlt ⊢
        omega
      obtain ⟨k, hk⟩ := ih h0' hlt'
      exact ⟨k, by simp [sampleLoop, hc, hk]⟩

/-! ### Summation lemmas for the probability-mass property -/

theorem list_sum_map_add {α : Type} (l : List α) (f g : α → Nat) :
    (l.map (fun x => f x + g x)).sum = (l.map f).sum + (l.map g).sum := by
  induction l with
  | nil => rfl
  | cons a rest ih =>
    simp only [List.map_cons, List.sum_cons, ih]
    omega

theorem sum_range_ite {n c v : Nat} (hc : c < n) :
    ((List.range n).map (fun j => if c = j then v else 0)).sum = v := by
  induction n with
  | zero => omega
  | succ m ih =>
    rw [List.range_succ, List.map_append, List.sum_append]
    by_cases hcm : c = m
    · subst hcm
      have hz : ((List.range c).map (fun j => if c = j then v else 0)).sum = 0 := by
        apply List.sum_eq_zero
        intro x hx
        simp only [List.mem_map] at hx
        obtain ⟨j, hj, rfl⟩ := hx
        have hjc : j < c := List.mem_range.1 hj
        have hne : ¬ c = j := by omega
        simp [hne]
      simp [hz]
    · have hlt : c < m := by omega
      simp [ih hlt, hcm]

theorem alookupD_cons (c v : Nat) (rest : sparseArray) (hnone : alookup rest c = none)
    (j : Nat) :
    (alookup ((c, v) :: rest) j).getD 0 =
      (if c = j then v else 0) + (alookup rest j).getD 0 := by
  by_cases h : c = j
  · subst h
    simp [alookup, hnone]
  · simp [alookup, h]

theorem sum_range_alookup {row : sparseArray} {n : Nat}
    (hnd : (row.map Prod.fst).Nodup) (hb : ∀ p ∈ row, p.1 < n) :
    ((List.range n).map (fun j => (alookup row j).getD 0)).sum = sparseArray.sum row := by
  induction row with
  | nil =>
    simp only [sparseArray.sum, List.map_nil, List.sum_nil]
    apply List.sum_eq_zero
    intro x hx
    simp only [List.mem_map] at hx
    obtain ⟨j, _, rfl⟩ := hx
    simp [alookup]
  | cons q rest ih =>
    obtain ⟨c, v⟩ := q
    have hnds := List.nodup_cons.1
      (show (c :: rest.map Prod.fst).Nodup by simpa only [List.map_cons] using hnd)
    have hcnone : alookup rest c = none := alookup_eq_none.2 hnds.1
    have hrw : ∀ j ∈ List.range n, (alookup ((c, v) :: rest) j).getD 0 =
        (if c = j then v else 0) + (alookup rest j).getD 0 :=
      fun j _ => alookupD_cons c v rest hcnone j
    rw [List.map_congr_left hrw, list_sum_map_add]
    have hcn : c < n := hb (c, v) (List.mem_cons_self _ _)
    rw [sum_range_ite hcn, ih hnds.2 (fun p hp => hb p (List.mem_cons_of_mem _ hp))]
    simp [sparseArray.sum]

theorem sum_range_alookup_rat {row : sparseArray} {n : Nat}
    (hnd : (row.map Prod.fst).Nodup) (hb : ∀ p ∈ row, p.1 < n) :
    ((List.range n).map (fun j => (((alookup row j).getD 0 : Nat) : ℚ))).sum =
      ((sparseArray.sum row : Nat) : ℚ) := by
  have h1 := sum_range_alookup hnd hb
  calc ((List.range n).map (fun j => (((alookup row j).getD 0 : Nat) : ℚ))).sum
      = (((List.range n).map (fun j => (alookup row j).getD 0)).map
          (fun m : Nat => (m : ℚ))).sum := by
        rw [List.map_map]
        rfl
    _ = ((((List.range n).map (fun j => (alookup row j).getD 0)).sum : Nat) : ℚ) :=
        (Nat.cast_list_sum _).symm
    _ = ((sparseArray.sum row : Nat) : ℚ) := by rw [h1]

/-! ### Inversion of the pool's forward mapping -/

theorem foldl_ainsert_fresh :
    ∀ (m : List (String × Nat)) (acc : List (Nat × String)),
      (m.map Prod.snd).Nodup → (∀ p ∈ m, p.2 ∉ acc.map Prod.fst) →
      m.foldl (fun acc p => ainsert acc p.2 p.1) acc =
        acc ++ m.map (fun p => (p.2, p.1)) := by
  intro m
  induction m with
  | nil =>
    intro acc _ _
    simp
  | cons q rest ih =>
    intro acc hnd hfresh
    obtain ⟨k, v⟩ := q
    have hnds := List.nodup_cons.1
      (show (v :: rest.map Prod.snd).Nodup by simpa only [List.map_cons] using hnd)
    simp only [List.foldl_cons, List.map_cons]
    rw [ainsert_fresh _ (hfresh (k, v) (List.mem_cons_self _ _))]
    rw [ih (acc ++ [(v, k)]) hnds.2 ?_]
    · simp
    · intro p hp
      simp only [List.map_append, List.mem_append]
      push_neg
      refine ⟨hfresh p (List.mem_cons_of_mem _ hp), ?_⟩
      simp only [List.map_cons, List.map_nil, List.mem_singleton]
      intro hc
      exact hnds.1 (hc ▸ List.mem_map_of_mem Prod.snd hp)

theorem enumKV_snd_nodup (n : Nat) (keys : List String) :
    ((enumKV n keys).map Prod.snd).Nodup := by
  rw [enumKV_snd]
  exact List.nodup_range' _ _

theorem invertPool_enumKV (keys : List String) :
    invertPool (enumKV 0 keys) = (enumKV 0 keys).map (fun p => (p.2, p.1)) := by
  unfold invertPool
  rw [foldl_ainsert_fresh (enumKV 0 keys) [] (enumKV_snd_nodup 0 keys) (by simp)]
  simp

/-! ### Unfolding helpers for the query operations -/

theorem transitionProbability_eq_of_get (chain : Chain) (next : String) (current : NGram)
    {i j : Nat} (hlen : current.length = chain.Order)
    (hc : spool.get chain.statePool (NGram.key current) = some i)
    (hn : spool.get chain.statePool next = some j) :
    chain.TransitionProbability next current =
      .ok ((((alookup ((alookup chain.frequencyMat i).getD []) j).getD 0 : Nat) : ℚ) /
        ((sparseArray.sum ((alookup chain.frequencyMat i).getD []) : Nat) : ℚ)) := by
  have hl : ¬ current.length ≠ chain.Order := by omega
  simp only [Chain.TransitionProbability, hc, hn, if_neg hl]

theorem generateDeterministic_eq_of_get (chain : Chain) (current : NGram) (prng : Int → Int)
    {i : Nat} (hlen : current.length = chain.Order)
    (hlast : current.getLast? ≠ some EndToken)
    (hc : spool.get chain.statePool (NGram.key current) = some i) :
    chain.GenerateDeterministic current prng =
      match sampleLoop (sparseArray.orderedPairs ((alookup chain.frequencyMat i).getD []))
          (prng (sparseArray.sum ((alookup chain.frequencyMat i).getD []))) with
      | some key => .ok ((alookup chain.statePool.intMap key).getD "")
      | none => .ok "" := by
  have hl : ¬ current.length ≠ chain.Order := by omega
  simp only [Chain.GenerateDeterministic, if_neg hl, if_neg hlast, hc]

theorem unmarshalJSON_eq (obj : chainJSON) :
    Chain.UnmarshalJSON obj =
      .ok ⟨obj.Order, ⟨obj.SpoolMap, invertPool obj.SpoolMap⟩, obj.FreqMat⟩ := rfl

theorem tp_error_of_len {chain : Chain} {next : String} {current : NGram}
    (hlen : current.length ≠ chain.Order) :
    chain.TransitionProbability next current =
      .error "N-gram length does not match chain order" := by
  rw [Chain.TransitionProbability, if_pos hlen]

theorem tp_ok_zero_of_unknown {chain : Chain} {next : String} {current : NGram}
    (hlen : current.length = chain.Order)
    (hnone : spool.get chain.statePool (NGram.key current) = none ∨
      spool.get chain.statePool next = none) :
    chain.TransitionProbability next current = .ok 0 := by
  have hl : ¬ current.length ≠ chain.Order := by omega
  rw [Chain.TransitionProbability, if_neg hl]
  split
  · next ci ni hg1 hg2 =>
    rcases hnone with h | h <;> simp_all
  · rfl

/-! ### Correctness of the IEEE754 rounding model -/

theorem floorLog2Aux_spec :
    ∀ (fuel : Nat) (x : ℚ) (acc e : Int),
      (2 : ℚ) ^ e ≤ x → x < (2 : ℚ) ^ (e + 1) → e.natAbs ≤ fuel →
      floorLog2Aux fuel x acc = acc + e := by
  intro fuel
  induction fuel with
  | zero =>
    intro x acc e h1 h2 hf
    have he : e = 0 := by omega
    subst he
    simp [floorLog2Aux]
  | succ f ih =>
    intro x acc e h1 h2 hf
    rw [floorLog2Aux]
    by_cases hx1 : x < 1
    · have he : e < 0 := by
        by_contra h
        push_neg at h
        have h3 : (2 : ℚ) ^ (0 : Int) ≤ 2 ^ e := zpow_le_zpow_right₀ (by norm_num) h
        simp at h3
        linarith
      rw [if_pos hx1]
      have h1' : (2 : ℚ) ^ (e + 1) ≤ x * 2 := by
        rw [zpow_add_one₀ (by norm_num : (2 : ℚ) ≠ 0)]
        exact mul_le_mul_of_nonneg_right h1 (by norm_num)
      have h2' : x * 2 < (2 : ℚ) ^ (e + 1 + 1) := by
        rw [zpow_add_one₀ (by norm_num : (2 : ℚ) ≠ 0) (e + 1)]
        exact mul_lt_mul_of_pos_right h2 (by norm_num)
      have hf' : (e + 1).natAbs ≤ f := by omega
      rw [ih (x * 2) (acc - 1) (e + 1) h1' h2' hf']
      omega
    · rw [if_neg hx1]
      push_neg at hx1
      by_cases hx2 : 2 ≤ x
      · have he : 1 ≤ e := by
          by_contra h
          push_neg at h
          have h3 : (2 : ℚ) ^ (e + 1) ≤ 2 ^ (1 : Int) :=
            zpow_le_zpow_right₀ (by norm_num) (by omega)
          simp at h3
          linarith
        rw [if_pos hx2]
        have h1' : (2 : ℚ) ^ (e - 1) ≤ x / 2 := by
          rw [zpow_sub_one₀ (by norm_num : (2 : ℚ) ≠ 0), div_eq_mul_inv]
          exact mul_le_mul_of_nonneg_right h1 (by norm_num)
        have h2' : x / 2 < (2 : ℚ) ^ (e - 1 + 1) := by
          have hee : e - 1 + 1 = e := by ring
          rw [hee, div_lt_iff₀ (by norm_num : (0 : ℚ) < 2)]
          calc x < 2 ^ (e + 1) := h2
            _ = 2 ^ e * 2 := zpow_add_one₀ (by norm_num) e
        have hf' : (e - 1).natAbs ≤ f := by omega
        rw [ih (x / 2) (acc + 1) (e - 1) h1' h2' hf']
        omega
      · rw [if_neg hx2]
        push_neg at hx2
        have he : e = 0 := by
          rcases lt_trichotomy e 0 with h | h | h
          · exfalso
            have h3 : (2 : ℚ) ^ (e + 1) ≤ 2 ^ (0 : Int) :=
              zpow_le_zpow_right₀ (by norm_num) (by omega)
            simp at h3
            linarith
          · exact h
          · exfalso
            have h3 : (2 : ℚ) ^ (1 : Int) ≤ 2 ^ e :=
              zpow_le_zpow_right₀ (by norm_num) (by omega)
            simp at h3
            linarith
        omega

theorem floorLog2_eq {x : ℚ} {e : Int} (h1 : (2 : ℚ) ^ e ≤ x)
    (h2 : x < (2 : ℚ) ^ (e + 1)) (hf : e.natAbs ≤ 4200) : floorLog2 x = e := by
  unfold floorLog2
  rw [floorLog2Aux_spec 4200 x 0 e h1 h2 hf]
  omega

theorem rne_eq_lt_half {x : ℚ} {n : Int} (hfl : ⌊x⌋ = n) (hlt : x - n < 1/2) :
    rne x = n := by
  simp only [rne, hfl, if_pos hlt]

theorem roundF64_pos_eq {x : ℚ} (hx : 0 < x) :
    roundF64 x = (rne (x * (2 : ℚ) ^ ((52 : Int) - floorLog2 x)) : ℚ) *
      (2 : ℚ) ^ (floorLog2 x - 52) := by
  have h1 : ¬ x = 0 := ne_of_gt hx
  have h2 : ¬ x < 0 := not_lt.2 (le_of_lt hx)
  simp only [roundF64, h1, if_false, if_neg h2, abs_of_pos hx, one_mul]

theorem roundF64_zero : roundF64 0 = 0 := by simp [roundF64]

theorem roundF64_one : roundF64 1 = 1 := by
  rw [roundF64_pos_eq (by norm_num)]
  rw [floorLog2_eq (x := 1) (e := 0) (by norm_num) (by norm_num) (by norm_num)]
  rw [show ((1 : ℚ) * (2 : ℚ) ^ ((52 : Int) - 0)) = 4503599627370496 by norm_num]
  rw [rne_eq_lt_half (n := 4503599627370496)
    (by rw [Int.floor_eq_iff]; norm_num) (by norm_num)]
  norm_num [zpow_neg]

theorem roundF64_three : roundF64 3 = 3 := by
  rw [roundF64_pos_eq (by norm_num)]
  rw [floorLog2_eq (x := 3) (e := 1) (by norm_num) (by norm_num) (by norm_num)]
  rw [show ((3 : ℚ) * (2 : ℚ) ^ ((52 : Int) - 1)) = 6755399441055744 by norm_num]
  rw [rne_eq_lt_half (n := 6755399441055744)
    (by rw [Int.floor_eq_iff]; norm_num) (by norm_num)]
  norm_num [zpow_neg]

theorem roundF64_third : roundF64 (1 / 3) = 6004799503160661 / 2 ^ 54 := by
  rw [roundF64_pos_eq (by norm_num)]
  rw [floorLog2_eq (x := 1/3) (e := -2) (by norm_num) (by norm_num) (by norm_num)]
  rw [show ((1 / 3 : ℚ) * (2 : ℚ) ^ ((52 : Int) - (-2))) = 18014398509481984 / 3
    by norm_num]
  rw [rne_eq_lt_half (n := 6004799503160661)
    (by rw [Int.floor_eq_iff]; refine ⟨by norm_num, by norm_num⟩) (by norm_num)]
  norm_num [zpow_neg]

theorem transitionProbabilityF64_eq_of_get (chain : Chain) (next : String)
    (current : NGram) {i j : Nat} (hlen : current.length = chain.Order)
    (hc : spool.get chain.statePool (NGram.key current) = some i)
    (hn : spool.get chain.statePool next = some j) :
    chain.TransitionProbabilityF64 next current =
      .ok (roundF64
        (roundF64 (((alookup ((alookup chain.frequencyMat i).getD []) j).getD 0 : Nat) : ℚ) /
          roundF64 ((sparseArray.sum ((alookup chain.frequencyMat i).getD []) : Nat) : ℚ))) := by
  have hl : ¬ current.length ≠ chain.Order := by omega
  simp only [Chain.TransitionProbabilityF64, hc, hn, if_neg hl]

/-! ### The claims -/

/-- C3: `TransitionProbability(next, current)` returns an error if and only
if `len(current)` differs from the chain's `Order`; if the length matches
and either `current`'s key or `next` is not interned in the pool, it
returns probability 0 with no error. -/
theorem transitionProbability_error_iff (chain : Chain) (next : String) (current : NGram) :
    ((∃ e, chain.TransitionProbability next current = .error e) ↔
      current.length ≠ chain.Order) ∧
    (current.length = chain.Order →
      (spool.get chain.statePool (NGram.key current) = none ∨
        spool.get chain.statePool next = none) →
      chain.TransitionProbability next current = .ok 0) := by
  constructor
  · constructor
    · rintro ⟨e, he⟩
      by_contra hlen
      have hl : ¬ current.length ≠ chain.Order := by omega
      rw [Chain.TransitionProbability, if_neg hl] at he
      split at he
      · simp at he
      · simp at he
    · intro hlen
      exact ⟨_, tp_error_of_len hlen⟩
  · intro hlen hnone
    exact tp_ok_zero_of_unknown hlen hnone

/-- Witness for C3 on a concrete chain: a query with an uninterned current
state returns probability 0 and no error. -/
theorem transitionProbability_error_iff_witness :
    (buildChain 1 [["a"]]).TransitionProbability "a" ["x"] = .ok 0 :=
  (transitionProbability_error_iff (buildChain 1 [["a"]]) "a" ["x"]).2 (by decide)
    (Or.inl (by decide))

/-- C4: an n-gram of the right length whose last token is not the END
sentinel and whose canonical key was never interned makes
`GenerateDeterministic` fail with the "unknown n-gram" error, while
`TransitionProbability` on the same current state returns 0 with no error
for every `next`.  (The hypothesis `current ≠ []` reflects that the Go code
indexes the last token, which requires a nonempty n-gram.) -/
theorem generateDeterministic_unknown_ngram (chain : Chain) (current : NGram)
    (prng : Int → Int)
    (hlen : current.length = chain.Order) (_hne : current ≠ [])
    (hlast : current.getLast? ≠ some EndToken)
    (hget : spool.get chain.statePool (NGram.key current) = none) :
    chain.GenerateDeterministic current prng = .error (unknownNGramError current) ∧
      ∀ next, chain.TransitionProbability next current = .ok 0 := by
  constructor
  · rw [Chain.GenerateDeterministic, if_neg (by omega), if_neg hlast, hget]
  · intro next
    rw [Chain.TransitionProbability, if_neg (by omega)]
    split
    · next ci ni hg1 hg2 => simp_all
    · rfl

/-- Witness for C4: querying the never-trained n-gram `["b"]` on a chain
trained on `["a"]`. -/
theorem generateDeterministic_unknown_ngram_witness :
    (buildChain 1 [["a"]]).GenerateDeterministic ["b"] (fun _ => 0) =
      .error (unknownNGramError ["b"]) ∧
    ∀ next, (buildChain 1 [["a"]]).TransitionProbability next ["b"] = .ok 0 :=
  generateDeterministic_unknown_ngram (buildChain 1 [["a"]]) ["b"] (fun _ => 0)
    (by decide) (by decide) (by decide) (by decide)

/-- C5: an n-gram of the right length whose last token is the END sentinel
makes both `Generate` and `GenerateDeterministic` return an empty string
with no error, on every chain, trained or not. -/
theorem generate_end_sentinel (chain : Chain) (current : NGram) (prng : Int → Int)
    (hlen : current.length = chain.Order)
    (hlast : current.getLast? = some EndToken) :
    chain.GenerateDeterministic current prng = .ok "" ∧
      chain.Generate current prng = .ok "" := by
  have h : chain.GenerateDeterministic current prng = .ok "" := by
    rw [Chain.GenerateDeterministic, if_neg (by omega), if_pos hlast]
  exact ⟨h, h⟩

/-- Witness for C5: the n-gram `["$"]` on a chain trained on `["a"]` (that
exact n-gram was never a training window's current state). -/
theorem generate_end_sentinel_witness :
    (buildChain 1 [["a"]]).GenerateDeterministic [EndToken] (fun _ => 0) = .ok "" ∧
      (buildChain 1 [["a"]]).Generate [EndToken] (fun _ => 0) = .ok "" :=
  generate_end_sentinel (buildChain 1 [["a"]]) [EndToken] (fun _ => 0)
    (by decide) (by decide)

/-- Counterexample to C6: deserializing a snapshot whose forward pool
mapping sends both `"a"` and `"b"` to index 0 (not injective) succeeds with
no error; the rebuilt reverse mapping keeps the later key (`"b"`). -/
theorem unmarshal_accepts_non_injective_pool :
    Chain.UnmarshalJSON ⟨1, [("a", 0), ("b", 0)], []⟩ =
      .ok ⟨1, ⟨[("a", 0), ("b", 0)], [(0, "b")]⟩, []⟩ ∧
    alookup [("a", (0 : Nat)), ("b", 0)] "a" = some 0 ∧
    alookup [("a", (0 : Nat)), ("b", 0)] "b" = some 0 := by
  decide

/-- C6 amended: deserialization performs no injectivity check — it always
succeeds at the snapshot-structure level, rebuilding the reverse pool
mapping by a last-write-wins inversion of the forward mapping (so on a
non-injective forward mapping, duplicated indices silently keep one key
instead of producing an error). -/
theorem unmarshal_always_succeeds (obj : chainJSON) :
    Chain.UnmarshalJSON obj =
      .ok ⟨obj.Order, ⟨obj.SpoolMap, invertPool obj.SpoolMap⟩, obj.FreqMat⟩ := rfl

/-- Counterexample to C7: on the chain trained with `Add(["a"])` at order 1,
both the current key `"$"` (interned as a next token) and the next token
`"a"` are in the pool, yet the frequency row for `"$"`'s index 2 is absent,
so `TransitionProbability("a", ["$"])` divides 0 by 0 (Go: `0.0/0.0`). -/
theorem transitionProbability_row_absent_reachable :
    spool.get (buildChain 1 [["a"]]).statePool (NGram.key [EndToken]) = some 2 ∧
    spool.get (buildChain 1 [["a"]]).statePool "a" = some 1 ∧
    alookup (buildChain 1 [["a"]]).frequencyMat 2 = none := by
  decide

/-- C7 amended: on chains built by `NewChain` and `Add`, whenever the
frequency row for an index is present it is nonempty with strictly positive
sum (so the division is never 0/0 when the row exists); however the
row-absent case is reachable even when both pool lookups succeed, because a
key interned only as a next token has no row (see the counterexample). -/
theorem stored_rows_have_positive_sum (order : Nat) (inputs : List (List String))
    (i : Nat) (row : sparseArray)
    (h : alookup (buildChain order inputs).frequencyMat i = some row) :
    row ≠ [] ∧ 0 < sparseArray.sum row := by
  obtain ⟨hne, hWF⟩ := (ChainWF_buildChain order inputs).2 i row h
  exact ⟨hne, row_sum_pos hne hWF⟩

/-- Witness for the amended C7 at a concrete stored row. -/
theorem stored_rows_have_positive_sum_witness :
    ([(1, 1)] : sparseArray) ≠ [] ∧ 0 < sparseArray.sum [(1, 1)] :=
  stored_rows_have_positive_sum 1 [["a"]] 0 [(1, 1)] (by decide)

/-- C8: the concrete order-1 scenario `Add(["the","cat","sat"])`: exactly
the transitions START→the, the→cat, cat→sat, sat→END are recorded, each
with count 1 (the pool and the frequency table are computed exactly), and
`TransitionProbability("cat", ["the"]) = 1` while
`TransitionProbability("dog", ["the"]) = 0` with no error. -/
theorem concrete_scenario_order_one :
    (buildChain 1 [["the", "cat", "sat"]]).statePool.stringMap =
      [("^", 0), ("the", 1), ("cat", 2), ("sat", 3), ("$", 4)] ∧
    (buildChain 1 [["the", "cat", "sat"]]).frequencyMat =
      [(0, [(1, 1)]), (1, [(2, 1)]), (2, [(3, 1)]), (3, [(4, 1)])] ∧
    (buildChain 1 [["the", "cat", "sat"]]).TransitionProbability "cat" ["the"] = .ok 1 ∧
    (buildChain 1 [["the", "cat", "sat"]]).TransitionProbability "dog" ["the"] = .ok 0 := by
  refine ⟨by decide, by decide, ?_, ?_⟩
  · rw [transitionProbability_eq_of_get (buildChain 1 [["the", "cat", "sat"]])
      "cat" ["the"] (i := 1) (j := 2) (by decide) (by decide) (by decide)]
    rw [show alookup (buildChain 1 [["the", "cat", "sat"]]).frequencyMat 1 =
      some [(2, 1)] from by decide]
    norm_num [Option.getD_some,
      show (alookup ([(2, 1)] : sparseArray) 2).getD 0 = 1 from rfl,
      show sparseArray.sum [(2, 1)] = 1 from rfl]
  · exact tp_ok_zero_of_unknown (by decide) (Or.inr (by decide))

/-- C9: `orderedPairs` returns all of the row's entries (a permutation of
them), sorted by descending count with ascending column index as
tie-breaker (`pairLE`), and its output is invariant under permuting the
input — i.e., independent of the underlying map's iteration order. -/
theorem orderedPairs_deterministic_order (s : sparseArray) :
    (sparseArray.orderedPairs s).Perm s ∧
    List.Pairwise pairLE (sparseArray.orderedPairs s) ∧
    ∀ t : sparseArray, s.Perm t →
      sparseArray.orderedPairs s = sparseArray.orderedPairs t := by
  refine ⟨List.perm_insertionSort pairLE s, List.sorted_insertionSort pairLE s, ?_⟩
  intro t hst
  exact List.eq_of_perm_of_sorted
    ((List.perm_insertionSort pairLE s).trans
      (hst.trans (List.perm_insertionSort pairLE t).symm))
    (List.sorted_insertionSort pairLE s) (List.sorted_insertionSort pairLE t)

/-- Witness for C9: two iteration orders of the same row produce the same
sorted output. -/
theorem orderedPairs_deterministic_order_witness :
    sparseArray.orderedPairs [(1, 2), (0, 2), (5, 7)] =
      sparseArray.orderedPairs [(5, 7), (0, 2), (1, 2)] :=
  (orderedPairs_deterministic_order [(1, 2), (0, 2), (5, 7)]).2.2
    [(5, 7), (0, 2), (1, 2)] (by decide)

theorem probOf_ok (x : ℚ) : probOf (.ok x) = x := rfl

/-- C1: serializing a chain built through `NewChain`/`Add` with
`MarshalJSON` and deserializing the snapshot with `UnmarshalJSON` yields a
chain with identical `TransitionProbability` results for every
(next, current) pair and identical `GenerateDeterministic` output for every
query n-gram and randomness source (the rebuilt chain is the original chain
value: the rebuilt reverse pool mapping coincides with the original). -/
theorem snapshot_round_trip (order : Nat) (inputs : List (List String)) :
    ∃ c' : Chain,
      Chain.UnmarshalJSON (Chain.MarshalJSON (buildChain order inputs)) = .ok c' ∧
      (∀ next current, c'.TransitionProbability next current =
        (buildChain order inputs).TransitionProbability next current) ∧
      (∀ current prng, c'.GenerateDeterministic current prng =
        (buildChain order inputs).GenerateDeterministic current prng) := by
  refine ⟨buildChain order inputs, ?_, fun _ _ => rfl, fun _ _ => rfl⟩
  obtain ⟨keys, hnd, hpool⟩ := (ChainWF_buildChain order inputs).1
  have hinv : invertPool (buildChain order inputs).statePool.stringMap =
      (buildChain order inputs).statePool.intMap := by
    rw [hpool]
    show invertPool (enumKV 0 keys) = (enumKV 0 keys).map (fun p => (p.2, p.1))
    exact invertPool_enumKV keys
  rw [unmarshalJSON_eq]
  simp only [Chain.MarshalJSON]
  rw [hinv]

/-- Counterexample to C2: the program returns `float64` values, and those
do not sum to exactly 1.  After `Add(["a","b"])`, `Add(["a","c"])`,
`Add(["a","d"])` at order 1, the state `["a"]` has three equally weighted
successors; each query returns the double nearest 1/3, namely
`6004799503160661 / 2^54`, and the exact sum of the three returned doubles
is `1 - 2^-54`, not 1.  (`TransitionProbabilityF64` models the `float64`
conversions and the correctly rounded division that
`Chain.TransitionProbability` abstracts away.) -/
theorem float_transition_probabilities_sum_ne_one :
    spool.get (buildChain 1 [["a", "b"], ["a", "c"], ["a", "d"]]).statePool
        (NGram.key ["a"]) = some 1 ∧
    alookup (buildChain 1 [["a", "b"], ["a", "c"], ["a", "d"]]).frequencyMat 1 =
      some [(2, 1), (4, 1), (5, 1)] ∧
    (((buildChain 1 [["a", "b"], ["a", "c"], ["a", "d"]]).statePool.stringMap).map
      (fun p => probOf
        ((buildChain 1 [["a", "b"], ["a", "c"], ["a", "d"]]).TransitionProbabilityF64
          p.1 ["a"]))).sum = 1 - ((2 : ℚ) ^ 54)⁻¹ ∧
    (1 : ℚ) - ((2 : ℚ) ^ 54)⁻¹ ≠ 1 := by
  have hrow : alookup (buildChain 1 [["a", "b"], ["a", "c"], ["a", "d"]]).frequencyMat 1 =
      some [(2, 1), (4, 1), (5, 1)] := by decide
  have hzero : ∀ j : Nat,
      alookup ([(2, 1), (4, 1), (5, 1)] : sparseArray) j = none →
      ∀ next, spool.get (buildChain 1 [["a", "b"], ["a", "c"], ["a", "d"]]).statePool next =
        some j →
      probOf ((buildChain 1 [["a", "b"], ["a", "c"], ["a", "d"]]).TransitionProbabilityF64
        next ["a"]) = 0 := by
    intro j hj next hnext
    rw [transitionProbabilityF64_eq_of_get _ next ["a"] (i := 1) (by decide) (by decide)
      hnext, hrow, probOf_ok]
    simp only [Option.getD_some]
    rw [show sparseArray.sum [(2, 1), (4, 1), (5, 1)] = 3 from by decide]
    simp only [hj, Option.getD_none, Nat.cast_zero, Nat.cast_ofNat,
      roundF64_zero, roundF64_three]
    norm_num [roundF64_zero]
  have hthird : ∀ j : Nat,
      alookup ([(2, 1), (4, 1), (5, 1)] : sparseArray) j = some 1 →
      ∀ next, spool.get (buildChain 1 [["a", "b"], ["a", "c"], ["a", "d"]]).statePool next =
        some j →
      probOf ((buildChain 1 [["a", "b"], ["a", "c"], ["a", "d"]]).TransitionProbabilityF64
        next ["a"]) = 6004799503160661 / 2 ^ 54 := by
    intro j hj next hnext
    rw [transitionProbabilityF64_eq_of_get _ next ["a"] (i := 1) (by decide) (by decide)
      hnext, hrow, probOf_ok]
    simp only [Option.getD_some]
    rw [show sparseArray.sum [(2, 1), (4, 1), (5, 1)] = 3 from by decide]
    simp only [hj, Option.getD_some, Nat.cast_one, Nat.cast_ofNat, roundF64_one,
      roundF64_three]
    rw [roundF64_third]
  refine ⟨by decide, hrow, ?_, by norm_num⟩
  rw [show (buildChain 1 [["a", "b"], ["a", "c"], ["a", "d"]]).statePool.stringMap =
    [("^", 0), ("a", 1), ("b", 2), ("$", 3), ("c", 4), ("d", 5)] from by decide]
  simp only [List.map_cons, List.map_nil, List.sum_cons, List.sum_nil]
  rw [hzero 0 (by decide) "^" (by decide), hzero 1 (by decide) "a" (by decide),
    hthird 2 (by decide) "b" (by decide), hzero 3 (by decide) "$" (by decide),
    hthird 4 (by decide) "c" (by decide), hthird 5 (by decide) "d" (by decide)]
  norm_num

/-- C2 amended: what sums to exactly 1 is the *exact* transition
distribution, not the `float64` values the program returns.  On chains
built through `NewChain`/`Add`, for every current state of the right
length whose key is interned with a stored frequency row (at least one
recorded transition), the exact quotients `count / total` — the values of
`Chain.TransitionProbability`, which computes the quotient before IEEE754
rounding — summed over all interned tokens `next` equal 1; the `float64`
values actually returned (`TransitionProbabilityF64`) sum to 1 only up to
rounding error, and exactly 1 only when every division is exact (see the
counterexample: three equal successors sum to `1 - 2^-54`).  Tokens
outside the pool contribute probability 0 (see C3), so this is the whole
probability mass. -/
theorem transition_probabilities_sum_to_one (order : Nat) (inputs : List (List String))
    (current : NGram) (i : Nat) (row : sparseArray)
    (hlen : current.length = order)
    (hget : spool.get (buildChain order inputs).statePool (NGram.key current) = some i)
    (hrow : alookup (buildChain order inputs).frequencyMat i = some row) :
    (((buildChain order inputs).statePool.stringMap).map
      (fun p => probOf ((buildChain order inputs).TransitionProbability p.1 current))).sum
      = 1 := by
  obtain ⟨⟨keys, hnd, hpool⟩, hmat⟩ := ChainWF_buildChain order inputs
  obtain ⟨hrne, hrWF⟩ := hmat i row hrow
  have hS : 0 < sparseArray.sum row := row_sum_pos hrne hrWF
  have hlen2 : current.length = (buildChain order inputs).Order := by
    rw [Order_buildChain]
    exact hlen
  have hkeylen : (buildChain order inputs).statePool.stringMap.length = keys.length := by
    rw [hpool]
    exact enumKV_length 0 keys
  have hpoint : ∀ p ∈ (buildChain order inputs).statePool.stringMap,
      probOf ((buildChain order inputs).TransitionProbability p.1 current) =
        (((alookup row p.2).getD 0 : Nat) : ℚ) * (((sparseArray.sum row : Nat) : ℚ))⁻¹ := by
    intro p hp
    have hgetp : spool.get (buildChain order inputs).statePool p.1 = some p.2 := by
      rw [hpool]
      rw [hpool] at hp
      exact alookup_enumKV_self hnd hp
    rw [transitionProbability_eq_of_get _ _ _ hlen2 hget hgetp, hrow, probOf_ok]
    simp only [Option.getD_some, div_eq_mul_inv]
  rw [List.map_congr_left hpoint, List.sum_map_mul_right]
  have hnum : (((buildChain order inputs).statePool.stringMap).map
      (fun p => (((alookup row p.2).getD 0 : Nat) : ℚ))).sum =
      ((sparseArray.sum row : Nat) : ℚ) := by
    rw [hpool]
    show ((enumKV 0 keys).map (fun p => (((alookup row p.2).getD 0 : Nat) : ℚ))).sum = _
    rw [show (enumKV 0 keys).map (fun p => (((alookup row p.2).getD 0 : Nat) : ℚ)) =
        ((enumKV 0 keys).map Prod.snd).map (fun j => (((alookup row j).getD 0 : Nat) : ℚ))
      from by rw [List.map_map]; rfl]
    rw [enumKV_snd, ← List.range_eq_range']
    exact sum_range_alookup_rat hrWF.1 (fun p hp => hkeylen ▸ (hrWF.2 p hp).1)
  rw [hnum]
  have hSne : ((sparseArray.sum row : Nat) : ℚ) ≠ 0 := by
    exact_mod_cast Nat.pos_iff_ne_zero.1 hS
  exact mul_inv_cancel₀ hSne

/-- Witness for C2 on the chain trained with `Add(["a"])`: the probability
mass out of the state `["a"]` (row index 1, row `[(2, 1)]`) is 1. -/
theorem transition_probabilities_sum_to_one_witness :
    (((buildChain 1 [["a"]]).statePool.stringMap).map
      (fun p => probOf ((buildChain 1 [["a"]]).TransitionProbability p.1 ["a"]))).sum
      = 1 :=
  transition_probabilities_sum_to_one 1 [["a"]] ["a"] 1 [(2, 1)] rfl (by decide)
    (by decide)

/-- Counterexample to C10: at order 2 the training token `"a_b"` collides
with the canonical key of the n-gram `["a", "b"]`; that n-gram passes the
length check, its last token is not END, and its key is interned (as a next
token), yet its frequency row is absent, so the sum handed to the
randomness capability as the `Intn` upper bound is 0 — not strictly
positive (Go's default `rand.Intn` would reject it) — and with a PRNG
returning 0 the subtraction loop runs over an empty pair list and the
trailing empty-string return after the loop IS reached. -/
theorem generate_sampling_zero_sum_reachable :
    ((["a", "b"] : NGram).length = (buildChain 2 [["a_b"]]).Order ∧
      (["a", "b"] : NGram).getLast? ≠ some EndToken ∧
      spool.get (buildChain 2 [["a_b"]]).statePool (NGram.key ["a", "b"]) = some 1) ∧
    sparseArray.sum ((alookup (buildChain 2 [["a_b"]]).frequencyMat 1).getD []) = 0 ∧
    (buildChain 2 [["a_b"]]).GenerateDeterministic ["a", "b"] (fun _ => 0) = .ok "" := by
  decide

/-- C10 amended: on chains built solely through `NewChain` and `Add` with
order at least 1, *provided no training token contains the delimiter
character `'_'`*, whenever `GenerateDeterministic` reaches the sampling
step (length check passed, last token not END, current state interned) the
row sum passed as the `Intn` upper bound is strictly positive, and for
every draw within the contract `[0, sum)` the subtraction loop returns a
token from within the loop (the trailing empty-string return is not
reached). -/
theorem generate_sampling_safe (order : Nat) (inputs : List (List String))
    (current : NGram) (i : Nat) (prng : Int → Int)
    (horder : 1 ≤ order)
    (hdelim : ∀ inp ∈ inputs, ∀ t ∈ inp, '_' ∉ t.data)
    (hlen : current.length = order)
    (hlast : current.getLast? ≠ some EndToken)
    (hget : spool.get (buildChain order inputs).statePool (NGram.key current) = some i) :
    ∃ row, alookup (buildChain order inputs).frequencyMat i = some row ∧
      0 < sparseArray.sum row ∧
      (0 ≤ prng (sparseArray.sum row) →
        prng (sparseArray.sum row) < sparseArray.sum row →
        ∃ key, sampleLoop (sparseArray.orderedPairs row)
            (prng (sparseArray.sum row)) = some key ∧
          (buildChain order inputs).GenerateDeterministic current prng =
            .ok ((alookup (buildChain order inputs).statePool.intMap key).getD "")) := by
  have hInv := DelimInv_buildChain horder hdelim
  have hne : spool.get (buildChain order inputs).statePool (NGram.key current) ≠ none := by
    simp [hget]
  rcases hInv (NGram.key current) hne with hpos | hEnd | ⟨ho2, hnodelim⟩
  · obtain ⟨j, row, hgj, hrj, hsj⟩ := hpos
    rw [hget] at hgj
    injection hgj with hij
    subst hij
    refine ⟨row, hrj, hsj, ?_⟩
    intro h0 hlt
    have hlt' : prng (sparseArray.sum row) <
        (sparseArray.sum (sparseArray.orderedPairs row) : Int) := by
      rw [sum_orderedPairs]
      exact_mod_cast hlt
    obtain ⟨key, hkey⟩ := sampleLoop_total h0 hlt'
    refine ⟨key, hkey, ?_⟩
    have hOrder : current.length = (buildChain order inputs).Order := by
      rw [Order_buildChain]
      exact hlen
    rw [generateDeterministic_eq_of_get _ _ _ hOrder hlast hget, hrj]
    simp only [Option.getD_some, hkey]
  · exfalso
    rcases Nat.lt_or_ge order 2 with ho1 | ho2
    · have ho : order = 1 := by omega
      subst ho
      obtain ⟨t, rfl⟩ := List.length_eq_one.1 hlen
      rw [key_singleton] at hEnd
      exact hlast (by rw [hEnd]; rfl)
    · have hcd := key_contains_delim (l := current) (by omega)
      rw [hEnd] at hcd
      exact absurd hcd (by decide)
  · rw [Order_buildChain] at ho2
    have hcd := key_contains_delim (l := current) (by omega)
    exact absurd hcd hnodelim

/-- Witness for the amended C10: order-1 chain trained with `Add(["a"])`,
querying `["a"]` with a PRNG drawing 0: the sampling step's sum is 1 and
the loop yields the END token. -/
theorem generate_sampling_safe_witness :
    ∃ row, alookup (buildChain 1 [["a"]]).frequencyMat 1 = some row ∧
      0 < sparseArray.sum row ∧
      ((0 : Int) ≤ 0 → (0 : Int) < sparseArray.sum row →
        ∃ key, sampleLoop (sparseArray.orderedPairs row) 0 = some key ∧
          (buildChain 1 [["a"]]).GenerateDeterministic ["a"] (fun _ => 0) =
            .ok ((alookup (buildChain 1 [["a"]]).statePool.intMap key).getD "")) :=
  generate_sampling_safe 1 [["a"]] ["a"] 1 (fun _ => 0) (by decide) (by decide)
    (by decide) (by decide) (by decide)
